import Mathlib

/-!
# Verification of the `welch-sde` Welch spectral-density estimator

Shallow embedding of the crate's compiled modules (`lib.rs`, `welch.rs`,
`window.rs`; the remaining `.rs` files are historical revisions not reachable
from `lib.rs`).  Floating-point arithmetic (`f32`/`f64`) is modelled by exact
real arithmetic `ℝ`; `usize` by `ℕ`; Rust float-to-`usize` casts (which
saturate) by `Int.toNat` of `Int.floor`/`round`.  The external FFT collaborator
(`rustfft::Radix4`) is out of the crate's scope; all estimator functions are
parametrised by an arbitrary transform `dft : List ℂ → List ℂ` standing for the
black-box "forward transform of a complex buffer, in place".
-/

/-- Rust `x.trunc() as usize` for a real `x`: truncation toward zero followed by
the saturating cast to `usize` (negative values clamp to `0`). -/
noncomputable def rustTrunc (x : ℝ) : ℕ := (Int.floor x).toNat

/-- Rust `x.round() as usize` for a real `x`: rounding half away from zero
(which on nonnegative reals is `⌊x + 1/2⌋`) followed by the saturating cast. -/
noncomputable def rustRound (x : ℝ) : ℕ := (round x).toNat

/-- Rust `usize::next_power_of_two`: the least power of two `≥ n` (`1` for `0`). -/
def nextPowerOfTwo (n : ℕ) : ℕ := 2 ^ Nat.clog 2 n

/-- The data of a `Window<T>` trait object: the weight vector together with the
two normalisation scalars `sqr_sum`/`sum_sqr` as computed by the implementor. -/
structure WindowData where
  weights : List ℝ
  sqr_sum : ℝ
  sum_sqr : ℝ

/-- `Hann::<T>::new` (window.rs): `weight[i] = sin(π·i/(n-1))²` with the `usize`
subtraction `n - 1`; `sqr_sum = Σ wᵢ²`, `sum_sqr = (Σ wᵢ)²`. -/
noncomputable def Hann.new (n : ℕ) : WindowData :=
  { weights := (List.range n).map fun i : ℕ =>
      Real.sin (Real.pi * (i : ℝ) / ((n - 1 : ℕ) : ℝ)) ^ 2
    sqr_sum := (((List.range n).map fun i : ℕ =>
      Real.sin (Real.pi * (i : ℝ) / ((n - 1 : ℕ) : ℝ)) ^ 2).map fun w => w * w).sum
    sum_sqr := (((List.range n).map fun i : ℕ =>
      Real.sin (Real.pi * (i : ℝ) / ((n - 1 : ℕ) : ℝ)) ^ 2).sum) ^ 2 }

/-- `One::<T>::new` (window.rs): all weights `1`, `sqr_sum = n`, `sum_sqr = n²`. -/
noncomputable def One.new (n : ℕ) : WindowData :=
  { weights := List.replicate n 1
    sqr_sum := (n : ℝ)
    sum_sqr := (n : ℝ) ^ 2 }

/-- The `Builder` struct of welch.rs (signal kept as the list of samples). -/
structure Builder where
  n_segment : ℕ
  segment_size : ℕ
  overlap : ℝ
  dft_max_size : ℕ
  signal : List ℝ
  fs : Option ℝ

/-- `Builder::new` (welch.rs): `k = 4`, `a = 0.5`,
`l = trunc(n / (k·(1-a) + a))`, cap `4096`, no sampling frequency. -/
noncomputable def Builder.new (signal : List ℝ) : Builder :=
  { n_segment := 4
    segment_size := rustTrunc ((signal.length : ℝ) / (4 * (1 - 0.5) + 0.5))
    overlap := 0.5
    dft_max_size := 4096
    signal := signal
    fs := none }

/-- `Builder::sampling_frequency`. -/
def Builder.sampling_frequency (b : Builder) (fs : ℝ) : Builder :=
  { b with fs := some fs }

/-- `Builder::overlap` (the setter; named `set_overlap` here because `overlap`
is the field): stores `a` and recomputes `l = trunc(n / (k·(1-a) + a))`. -/
noncomputable def Builder.set_overlap (b : Builder) (a : ℝ) : Builder :=
  { b with
    overlap := a
    segment_size :=
      rustTrunc ((b.signal.length : ℝ) / ((b.n_segment : ℝ) * (1 - a) + a)) }

/-- `Builder::n_segment` (the setter; named `set_n_segment` here because
`n_segment` is the field): stores `k` and recomputes
`l = trunc(n / (k·(1-a) + a))`. -/
noncomputable def Builder.set_n_segment (b : Builder) (k : ℕ) : Builder :=
  { b with
    n_segment := k
    segment_size :=
      rustTrunc ((b.signal.length : ℝ) / ((k : ℝ) * (1 - b.overlap) + b.overlap)) }

/-- `Builder::dft_log2_max_size`: `dft_max_size = 2 << (p - 1)` in 64-bit
`usize` arithmetic.  `p = 0` underflows the `usize` subtraction (debug-mode
panic, modelled as `none`); a shift amount `≥ 64` is likewise a panic; the
shift result itself silently truncates modulo `2^64`. -/
def Builder.dft_log2_max_size (b : Builder) (p : ℕ) : Option Builder :=
  if p = 0 then none
  else if 64 ≤ p - 1 then none
  else some { b with dft_max_size := (2 <<< (p - 1)) % 2 ^ 64 }

/-- The `Welch` estimator struct of welch.rs. -/
structure Welch where
  n_segment : ℕ
  segment_size : ℕ
  dft_size : ℕ
  overlap_idx : ℕ
  signal : List ℝ
  fs : ℝ
  window : WindowData

/-- `Builder::build` (welch.rs), parametrised by the window constructor
`W::new`: starts from `(k, l, m) = (n_segment, segment_size,
l.next_power_of_two())`; if `m > dft_max_size` it clamps `l = m =
dft_max_size` and recomputes `k = trunc((n - l·a) / (l·(1-a)))`; the stride is
`overlap_idx = l - round(l·a)` with the final `l`; `fs` defaults to `1`. -/
noncomputable def Builder.build (b : Builder) (wnew : ℕ → WindowData) : Welch :=
  if nextPowerOfTwo b.segment_size > b.dft_max_size then
    { n_segment := rustTrunc (((b.signal.length : ℝ) - (b.dft_max_size : ℝ) * b.overlap)
        / ((b.dft_max_size : ℝ) * (1 - b.overlap)))
      segment_size := b.dft_max_size
      dft_size := b.dft_max_size
      overlap_idx := b.dft_max_size - rustRound ((b.dft_max_size : ℝ) * b.overlap)
      signal := b.signal
      fs := b.fs.getD 1
      window := wnew b.dft_max_size }
  else
    { n_segment := b.n_segment
      segment_size := b.segment_size
      dft_size := nextPowerOfTwo b.segment_size
      overlap_idx := b.segment_size - rustRound ((b.segment_size : ℝ) * b.overlap)
      signal := b.signal
      fs := b.fs.getD 1
      window := wnew b.segment_size }

/-- Rust `slice::windows(n)`: all contiguous sub-slices of length `n`,
window `j` being `xs[j .. j+n)`; empty when `n > xs.length`. -/
def windowsList (n : ℕ) (xs : List ℝ) : List (List ℝ) :=
  (List.range (xs.length + 1 - n)).map fun j => (xs.drop j).take n

/-- Rust `Iterator::step_by(d)` on a list: the first element, then every
`d`-th element after it (requires `d ≥ 1`, as in Rust). -/
def stepBy {α : Type} (d : ℕ) : List α → List α
  | [] => []
  | x :: xs => x :: stepBy d (xs.drop (d - 1))
termination_by xs => xs.length
decreasing_by
  simp only [List.length_drop, List.length_cons]
  omega

/-- The segment extraction of `Welch::windowed_segments` (welch.rs):
`self.signal.windows(segment_size).step_by(overlap_idx)`. -/
def Welch.segments (w : Welch) : List (List ℝ) :=
  stepBy w.overlap_idx (windowsList w.segment_size w.signal)

/-- The per-segment buffer of `Welch::windowed_segments`: a complex buffer of
`m` zeros whose prefix is overwritten with `segment[i] * weights[i]` (real
parts only; the `zip` truncates at the shorter of product stream and buffer). -/
noncomputable def windowedBuffer (m : ℕ) (s wt : List ℝ) : List ℂ :=
  ((List.zipWith (fun x v => ((x * v : ℝ) : ℂ)) s wt) ++ List.replicate m 0).take m

/-- `Welch::dfts` (welch.rs): window each segment into a length-`m` complex
buffer and forward-transform it.  The source concatenates the buffers, runs
`Radix4::new(m).process` over the whole vector (which transforms each
consecutive length-`m` chunk independently) and re-chunks by `m`; the
concatenation/re-chunking round-trip is fused away here, keeping the list of
per-segment transforms. -/
noncomputable def Welch.dfts (w : Welch) (dft : List ℂ → List ℂ) : List (List ℂ) :=
  w.segments.map fun s => dft (windowedBuffer w.dft_size s w.window.weights)

/-- The `Periodogram` struct of lib.rs: the sampling frequency tag and the
value vector. -/
structure Periodogram where
  fs : ℝ
  values : List ℝ

/-- Rust `a.iter_mut().zip(p).for_each(|(a, p)| *a += p)`: elementwise add `p`
into `a`, leaving the tail of `a` untouched when `p` is shorter. -/
noncomputable def addInto (a p : List ℝ) : List ℝ :=
  List.zipWith (fun x y => x + y) a p ++ a.drop p.length

/-- The shared periodogram pipeline of both trait impls in welch.rs: per
transformed segment take the squared moduli of the first `m/2` bins, fold them
elementwise into an accumulator of `m/2` zeros, scale every entry by `u`, and
tag with `fs`. -/
noncomputable def Welch.periodogramOf (w : Welch) (dft : List ℂ → List ℂ) (u : ℝ) :
    Periodogram :=
  { fs := w.fs
    values :=
      (((w.dfts dft).map fun seg =>
          (seg.take (w.dft_size / 2)).map fun z => Complex.normSq z).foldl
        addInto (List.replicate (w.dft_size / 2) 0)).map fun x => x * u }

/-- `<Welch as SpectralDensityPeriodogram>::periodogram` (welch.rs):
`u = (sqr_sum · k · fs)⁻¹`. -/
noncomputable def Welch.sd_periodogram (w : Welch) (dft : List ℂ → List ℂ) :
    Periodogram :=
  w.periodogramOf dft (w.window.sqr_sum * (w.n_segment : ℝ) * w.fs)⁻¹

/-- `<Welch as PowerSpectrumPeriodogram>::periodogram` (welch.rs):
`u = (sum_sqr · k)⁻¹`. -/
noncomputable def Welch.ps_periodogram (w : Welch) (dft : List ℂ → List ℂ) :
    Periodogram :=
  w.periodogramOf dft (w.window.sum_sqr * (w.n_segment : ℝ))⁻¹

/-- `Periodogram::frequency` (lib.rs): `f[i] = i · fs · 0.5 / (n - 1)` for
`i < n`, with the `usize` subtraction `n - 1`. -/
noncomputable def Periodogram.frequency (p : Periodogram) : List ℝ :=
  (List.range p.values.length).map fun i : ℕ =>
    (i : ℝ) * p.fs * 0.5 / ((p.values.length - 1 : ℕ) : ℝ)

/-! ## Helper lemmas: casts, `stepBy`, `windowsList`, segments -/

theorem rustTrunc_natCast (n : ℕ) : rustTrunc ((n : ℝ)) = n := by
  rw [rustTrunc, Int.floor_natCast, Int.toNat_natCast]

theorem rustTrunc_eq (x : ℝ) (n : ℕ) (h1 : (n : ℝ) ≤ x) (h2 : x < n + 1) :
    rustTrunc x = n := by
  rw [rustTrunc]
  have : Int.floor x = (n : ℤ) := by
    rw [Int.floor_eq_iff]
    constructor
    · exact_mod_cast h1
    · push_cast
      exact h2
  rw [this, Int.toNat_natCast]

theorem rustRound_eq (x : ℝ) (n : ℕ) (h1 : (n : ℝ) - 1/2 ≤ x) (h2 : x < n + 1/2) :
    rustRound x = n := by
  rw [rustRound, round_eq]
  have : Int.floor (x + 1/2) = (n : ℤ) := by
    rw [Int.floor_eq_iff]
    constructor
    · push_cast
      linarith
    · push_cast
      linarith
  rw [this, Int.toNat_natCast]

theorem stepBy_nil {α : Type} (d : ℕ) : stepBy d ([] : List α) = [] := by
  rw [stepBy]

theorem stepBy_cons {α : Type} (d : ℕ) (x : α) (xs : List α) :
    stepBy d (x :: xs) = x :: stepBy d (xs.drop (d - 1)) := by
  rw [stepBy]

theorem stepBy_length {α : Type} (d : ℕ) (hd : 1 ≤ d) (xs : List α) :
    (stepBy d xs).length = (xs.length + d - 1) / d := by
  induction xs using stepBy.induct d with
  | case1 =>
    rw [stepBy_nil]
    simp only [List.length_nil]
    rw [Nat.div_eq_of_lt (show 0 + d - 1 < d by omega)]
  | case2 x xs ih =>
    rw [stepBy_cons]
    simp only [List.length_cons, List.length_drop] at ih ⊢
    have h2 : xs.length + 1 + d - 1 = xs.length + d := by omega
    rw [ih, h2, Nat.add_div_right _ (show 0 < d by omega)]
    rcases le_or_lt (d - 1) xs.length with h | h
    · have h1 : xs.length - (d - 1) + d - 1 = xs.length := by omega
      rw [h1]
    · have h1 : xs.length - (d - 1) + d - 1 = d - 1 := by omega
      rw [h1, Nat.div_eq_of_lt (show d - 1 < d by omega),
        Nat.div_eq_of_lt (show xs.length < d by omega)]

theorem getD_drop' {α : Type} (xs : List α) (k i : ℕ) (x0 : α) :
    (xs.drop k).getD i x0 = xs.getD (k + i) x0 := by
  simp [List.getD_eq_getElem?_getD, List.getElem?_drop]

theorem getD_take' {α : Type} (xs : List α) (n i : ℕ) (hi : i < n) (x0 : α) :
    (xs.take n).getD i x0 = xs.getD i x0 := by
  rw [List.getD_eq_getElem?_getD, List.getD_eq_getElem?_getD,
    List.getElem?_take, if_pos hi]

theorem stepBy_getD {α : Type} (d : ℕ) (hd : 1 ≤ d) (xs : List α) (i : ℕ) (x0 : α) :
    (stepBy d xs).getD i x0 = xs.getD (i * d) x0 := by
  induction xs using stepBy.induct d generalizing i with
  | case1 => rw [stepBy_nil]; simp
  | case2 x xs ih =>
    rw [stepBy_cons]
    cases i with
    | zero => simp
    | succ j =>
      rw [List.getD_cons_succ, ih, getD_drop']
      have h0 : d - 1 + j * d = (j + 1) * d - 1 := by
        cases d with
        | zero => omega
        | succ e => ring_nf; omega
      rw [h0]
      have h1 : 1 ≤ (j + 1) * d := by
        calc 1 = 1 * 1 := by omega
        _ ≤ (j + 1) * d := Nat.mul_le_mul (by omega) hd
      cases hh : (j + 1) * d with
      | zero => omega
      | succ t => rw [List.getD_cons_succ]; simp

theorem windowsList_length (n : ℕ) (xs : List ℝ) :
    (windowsList n xs).length = xs.length + 1 - n := by
  simp [windowsList]

theorem windowsList_getD (n : ℕ) (xs : List ℝ) (j : ℕ) (hj : j < xs.length + 1 - n) :
    (windowsList n xs).getD j [] = (xs.drop j).take n := by
  have h : j < (windowsList n xs).length := by rw [windowsList_length]; exact hj
  rw [List.getD_eq_getElem _ _ h]
  simp [windowsList]

theorem Welch.segments_length (w : Welch) (hd : 1 ≤ w.overlap_idx)
    (hl : w.segment_size ≤ w.signal.length) :
    w.segments.length = (w.signal.length - w.segment_size) / w.overlap_idx + 1 := by
  rw [Welch.segments, stepBy_length _ hd, windowsList_length]
  have h2 : w.signal.length + 1 - w.segment_size + w.overlap_idx - 1
      = w.signal.length - w.segment_size + w.overlap_idx := by omega
  rw [h2, Nat.add_div_right _ (show 0 < w.overlap_idx by omega)]

theorem Welch.segments_getD (w : Welch) (hd : 1 ≤ w.overlap_idx) (j : ℕ)
    (hj : j < w.segments.length) :
    w.segments.getD j [] =
      (w.signal.drop (j * w.overlap_idx)).take w.segment_size := by
  rw [Welch.segments, stepBy_getD _ hd]
  rw [Welch.segments, stepBy_length _ hd, windowsList_length] at hj
  set W := w.signal.length + 1 - w.segment_size with hW
  have hc : ((W + w.overlap_idx - 1) / w.overlap_idx) * w.overlap_idx
      ≤ W + w.overlap_idx - 1 := Nat.div_mul_le_self _ _
  have hj1 : (j + 1) * w.overlap_idx
      ≤ ((W + w.overlap_idx - 1) / w.overlap_idx) * w.overlap_idx :=
    Nat.mul_le_mul_right _ (by omega)
  have hj2 : j * w.overlap_idx + w.overlap_idx ≤ W + w.overlap_idx - 1 := by
    have : (j + 1) * w.overlap_idx = j * w.overlap_idx + w.overlap_idx := by ring
    omega
  exact windowsList_getD _ _ _ (by omega)

/-- The start of every extracted segment leaves room for a full segment:
`j·d + l ≤ n` for every extracted index `j`. -/
theorem Welch.segments_fit (w : Welch) (hd : 1 ≤ w.overlap_idx) (j : ℕ)
    (hj : j < w.segments.length) :
    j * w.overlap_idx + w.segment_size ≤ w.signal.length := by
  rw [Welch.segments, stepBy_length _ hd, windowsList_length] at hj
  set W := w.signal.length + 1 - w.segment_size with hW
  have hc : ((W + w.overlap_idx - 1) / w.overlap_idx) * w.overlap_idx
      ≤ W + w.overlap_idx - 1 := Nat.div_mul_le_self _ _
  have hj1 : (j + 1) * w.overlap_idx
      ≤ ((W + w.overlap_idx - 1) / w.overlap_idx) * w.overlap_idx :=
    Nat.mul_le_mul_right _ (by omega)
  have hj2 : (j + 1) * w.overlap_idx = j * w.overlap_idx + w.overlap_idx := by ring
  have hW1 : 1 ≤ W := by
    by_contra hcon
    have : W = 0 := by omega
    rw [this] at hj
    rw [Nat.div_eq_of_lt (by omega)] at hj
    omega
  omega

/-! ## Helper lemmas: buffers and accumulation -/

theorem windowedBuffer_length (m : ℕ) (s wt : List ℝ) :
    (windowedBuffer m s wt).length = m := by
  simp [windowedBuffer]

theorem getD_replicate' {α : Type} (n i : ℕ) (x x0 : α) (hi : i < n) :
    (List.replicate n x).getD i x0 = x := by
  rw [List.getD_eq_getElem _ _ (by simpa using hi)]
  exact List.getElem_replicate x _

theorem windowedBuffer_getD (m : ℕ) (s wt : List ℝ) (t : ℕ) (ht : t < m) :
    (windowedBuffer m s wt).getD t 0 =
      if t < min s.length wt.length
      then ((s.getD t 0 * wt.getD t 0 : ℝ) : ℂ) else 0 := by
  rw [windowedBuffer, getD_take' _ _ _ ht]
  by_cases hz : t < min s.length wt.length
  · rw [if_pos hz]
    have hzl : t < (List.zipWith (fun x v => ((x * v : ℝ) : ℂ)) s wt).length := by
      simpa using hz
    rw [List.getD_eq_getElem?_getD, List.getElem?_append, if_pos hzl,
      ← List.getD_eq_getElem?_getD, List.getD_eq_getElem _ _ hzl,
      List.getElem_zipWith]
    have h1 : t < s.length := by omega
    have h2 : t < wt.length := by omega
    rw [List.getD_eq_getElem _ _ h1, List.getD_eq_getElem _ _ h2]
  · rw [if_neg hz]
    have hzl : (List.zipWith (fun x v => ((x * v : ℝ) : ℂ)) s wt).length ≤ t := by
      simpa using Nat.le_of_not_lt hz
    rw [List.getD_eq_getElem?_getD, List.getElem?_append, if_neg (by omega),
      ← List.getD_eq_getElem?_getD]
    apply getD_replicate'
    simp only [List.length_zipWith] at hzl ⊢
    omega

theorem addInto_length (a p : List ℝ) : (addInto a p).length = a.length := by
  rw [addInto]
  simp only [List.length_append, List.length_zipWith, List.length_drop]
  omega

theorem foldl_addInto_length (ps : List (List ℝ)) :
    ∀ a : List ℝ, (ps.foldl addInto a).length = a.length := by
  induction ps with
  | nil => intro a; rfl
  | cons p ps ih =>
    intro a
    rw [List.foldl_cons, ih, addInto_length]

theorem addInto_getD (a p : List ℝ) (i : ℕ) (hi : i < a.length)
    (hp : p.length = a.length) :
    (addInto a p).getD i 0 = a.getD i 0 + p.getD i 0 := by
  rw [addInto, hp, List.drop_length, List.append_nil]
  have hz : i < (List.zipWith (fun x y => x + y) a p).length := by
    simp only [List.length_zipWith]
    omega
  rw [List.getD_eq_getElem _ _ hz, List.getElem_zipWith,
    List.getD_eq_getElem _ _ hi, List.getD_eq_getElem _ _ (show i < p.length by omega)]

theorem foldl_addInto_getD (ps : List (List ℝ)) (i : ℕ) :
    ∀ a : List ℝ, (∀ p ∈ ps, p.length = a.length) → i < a.length →
      (ps.foldl addInto a).getD i 0
        = a.getD i 0 + (ps.map fun p => p.getD i 0).sum := by
  induction ps with
  | nil => intro a _ _; simp
  | cons p ps ih =>
    intro a hlen hi
    rw [List.foldl_cons, List.map_cons, List.sum_cons,
      ih (addInto a p)
        (fun q hq => by rw [addInto_length]; exact hlen q (List.mem_cons_of_mem _ hq))
        (by rw [addInto_length]; exact hi),
      addInto_getD a p i hi (hlen p (List.mem_cons_self p ps))]
    ring

theorem addInto_forall_nonneg (a p : List ℝ) (ha : ∀ x ∈ a, 0 ≤ x)
    (hp : ∀ x ∈ p, 0 ≤ x) : ∀ x ∈ addInto a p, 0 ≤ x := by
  intro x hx
  rw [addInto] at hx
  rcases List.mem_append.mp hx with h | h
  · obtain ⟨i, hi, hget⟩ := List.mem_iff_getElem.mp h
    rw [List.getElem_zipWith] at hget
    simp only [List.length_zipWith] at hi
    have h1 := ha _ (List.getElem_mem (l := a) (n := i) (by omega))
    have h2 := hp _ (List.getElem_mem (l := p) (n := i) (by omega))
    rw [← hget]
    exact add_nonneg h1 h2
  · exact ha x (List.mem_of_mem_drop h)

theorem foldl_addInto_forall_nonneg (ps : List (List ℝ)) :
    ∀ a : List ℝ, (∀ x ∈ a, 0 ≤ x) → (∀ p ∈ ps, ∀ x ∈ p, 0 ≤ x) →
      ∀ x ∈ ps.foldl addInto a, 0 ≤ x := by
  induction ps with
  | nil => intro a ha _; exact ha
  | cons p ps ih =>
    intro a ha hps
    rw [List.foldl_cons]
    exact ih _ (addInto_forall_nonneg a p ha (hps p (List.mem_cons_self p ps)))
      (fun q hq => hps q (List.mem_cons_of_mem _ hq))

theorem sum_map_range_getD {α : Type} (l : List α) (h : α → ℝ) (x0 : α) :
    ((List.range l.length).map fun j => h (l.getD j x0)).sum = (l.map h).sum := by
  induction l with
  | nil => simp
  | cons x xs ih =>
    rw [List.length_cons, List.range_succ_eq_map, List.map_cons, List.sum_cons,
      List.map_map, List.map_cons, List.sum_cons, List.getD_cons_zero]
    have h2 : ((List.range xs.length).map
          ((fun j => h ((x :: xs).getD j x0)) ∘ Nat.succ)).sum
        = ((List.range xs.length).map fun j => h (xs.getD j x0)).sum := by
      simp only [Function.comp_def, List.getD_cons_succ]
    rw [h2, ih]

/-! ## Helper lemmas: the shared periodogram pipeline -/

theorem getD_map' {α β : Type} (f : α → β) (l : List α) (i : ℕ)
    (hi : i < l.length) (a0 : α) (b0 : β) :
    (l.map f).getD i b0 = f (l.getD i a0) := by
  rw [List.getD_eq_getElem _ _ (by simpa using hi), List.getElem_map,
    List.getD_eq_getElem _ _ hi]

theorem Welch.periodogramOf_fs (w : Welch) (dft : List ℂ → List ℂ) (u : ℝ) :
    (w.periodogramOf dft u).fs = w.fs := rfl

theorem Welch.periodogramOf_values_length (w : Welch) (dft : List ℂ → List ℂ)
    (u : ℝ) : (w.periodogramOf dft u).values.length = w.dft_size / 2 := by
  rw [Welch.periodogramOf]
  simp only [List.length_map]
  rw [foldl_addInto_length, List.length_replicate]

theorem Welch.periodogramOf_values_getD (w : Welch) (dft : List ℂ → List ℂ)
    (u : ℝ) (hdft : ∀ buf, (dft buf).length = buf.length) (i : ℕ)
    (hi : i < w.dft_size / 2) :
    (w.periodogramOf dft u).values.getD i 0
      = ((w.segments.map fun s => Complex.normSq
          ((dft (windowedBuffer w.dft_size s w.window.weights)).getD i 0)).sum) * u := by
  have hn : w.dft_size / 2 ≤ w.dft_size := Nat.div_le_self _ _
  set n := w.dft_size / 2 with hns
  set ps := (w.dfts dft).map fun seg => (seg.take n).map fun z => Complex.normSq z
    with hps
  have hplen : ∀ p ∈ ps, p.length = (List.replicate n (0:ℝ)).length := by
    intro p hp
    rw [hps] at hp
    obtain ⟨seg, hseg, rfl⟩ := List.mem_map.mp hp
    rw [Welch.dfts] at hseg
    obtain ⟨s, _, rfl⟩ := List.mem_map.mp hseg
    simp only [List.length_map, List.length_take, List.length_replicate]
    rw [hdft, windowedBuffer_length]
    omega
  have hfold : i < (List.replicate n (0:ℝ)).length := by
    rw [List.length_replicate]; exact hi
  have hfl : (ps.foldl addInto (List.replicate n 0)).length = n := by
    rw [foldl_addInto_length, List.length_replicate]
  rw [Welch.periodogramOf]
  simp only
  rw [getD_map' _ _ i (by rw [hfl]; exact hi) 0 0,
    foldl_addInto_getD ps i _ hplen hfold,
    getD_replicate' _ _ _ _ hi, zero_add]
  congr 1
  rw [hps, Welch.dfts, List.map_map, List.map_map]
  congr 1
  apply List.map_congr_left
  intro s hs
  simp only [Function.comp_def]
  have hlen1 : (dft (windowedBuffer w.dft_size s w.window.weights)).length
      = w.dft_size := by rw [hdft, windowedBuffer_length]
  rw [getD_map' _ _ i (by simp only [List.length_take, hlen1]; omega) 0 0,
    getD_take' _ _ _ hi]

/-! ## C1 -/

/-- **C1**: For every signal of length `n`, requested segment count `k0`,
overlap fraction `a`, and maximum transform size `max_m`, the built
estimator's plan satisfies `l0 = trunc(n / (k0·(1-a) + a))`; if
`next_power_of_two l0 ≤ max_m` then `(n_segment, segment_size, dft_size) =
(k0, l0, next_power_of_two l0)`, otherwise `segment_size = max_m`,
`n_segment = trunc((n - max_m·a) / (max_m·(1-a)))` and `dft_size = max_m`;
in both branches the stride is `overlap_idx = segment_size -
round(segment_size·a)`. -/
theorem C1_segmentation_plan (sig : List ℝ) (k0 max_m : ℕ) (a : ℝ)
    (wnew : ℕ → WindowData) :
    let b : Builder :=
      { ((Builder.new sig).set_n_segment k0).set_overlap a with
        dft_max_size := max_m }
    let w : Welch := b.build wnew
    let l0 : ℕ := rustTrunc ((sig.length : ℝ) / ((k0 : ℝ) * (1 - a) + a))
    (if nextPowerOfTwo l0 ≤ max_m
      then w.n_segment = k0 ∧ w.segment_size = l0 ∧ w.dft_size = nextPowerOfTwo l0
      else w.segment_size = max_m
        ∧ w.n_segment = rustTrunc (((sig.length : ℝ) - (max_m : ℝ) * a)
            / ((max_m : ℝ) * (1 - a)))
        ∧ w.dft_size = max_m)
    ∧ w.overlap_idx = w.segment_size - rustRound ((w.segment_size : ℝ) * a) := by
  intro b w l0
  unfold w b l0
  simp only [Builder.build, Builder.set_overlap, Builder.set_n_segment, Builder.new]
  simp only [gt_iff_lt]
  split_ifs with h1 h2
  · omega
  · exact ⟨⟨rfl, rfl, rfl⟩, rfl⟩
  · exact ⟨⟨rfl, rfl, rfl⟩, rfl⟩
  · omega

/-! ## C9 -/

/-- **C9**: Calling the same periodogram operation twice on an unmodified
estimator yields identical outputs (same `fs` tag, same values); the
operations are pure functions of the estimator (the Rust methods take `&self`
with no interior mutability), so the estimator's fields are untouched. -/
theorem C9_idempotent (w : Welch) (dft : List ℂ → List ℂ) :
    (w.sd_periodogram dft = w.sd_periodogram dft
      ∧ w.ps_periodogram dft = w.ps_periodogram dft)
    ∧ ((w.sd_periodogram dft).fs = w.fs ∧ (w.ps_periodogram dft).fs = w.fs) :=
  ⟨⟨rfl, rfl⟩, ⟨rfl, rfl⟩⟩

/-! ## C7 -/

/-- **C7** counterexample: exponent `64` is accepted and silently sets the
maximum transform size to `0` (the `usize` shift `2 << 63` truncates), not to
`2^64`; so the setter does not set the cap to `2^p` for every `p ≥ 1`. -/
theorem C7_counterexample :
    ((Builder.new []).dft_log2_max_size 64).map Builder.dft_max_size = some 0
      ∧ (0 : ℕ) ≠ 2 ^ 64 := by
  constructor
  · rw [Builder.dft_log2_max_size, if_neg (by omega), if_neg (by omega)]
    rw [Option.map_some']
    congr 1
  · norm_num

/-- **C7** (amended): the setter rejects exponent `0` (usize underflow panic,
modelled as `none`) and sets the maximum transform size to `2^p` for every
exponent `1 ≤ p ≤ 63`; exponents `≥ 64` overflow the 64-bit shift. -/
theorem C7_dft_log2_max_size (b : Builder) (p : ℕ) (h1 : 1 ≤ p) (h63 : p ≤ 63) :
    b.dft_log2_max_size 0 = none
      ∧ b.dft_log2_max_size p = some { b with dft_max_size := 2 ^ p } := by
  constructor
  · rw [Builder.dft_log2_max_size, if_pos rfl]
  · rw [Builder.dft_log2_max_size, if_neg (by omega), if_neg (by omega)]
    congr 1
    rw [Nat.shiftLeft_eq]
    have hp : 2 * 2 ^ (p - 1) = 2 ^ p := by
      rw [← pow_succ']
      congr 1
      omega
    rw [hp, Nat.mod_eq_of_lt (Nat.pow_lt_pow_right (by norm_num) (by omega))]

/-- Witness for C7 at the crate's default exponent `p = 12`. -/
theorem C7_dft_log2_max_size_witness :
    ((1:ℕ) ≤ 12 ∧ (12:ℕ) ≤ 63)
      ∧ ((Builder.new []).dft_log2_max_size 0 = none
        ∧ (Builder.new []).dft_log2_max_size 12
            = some { Builder.new [] with dft_max_size := 2 ^ 12 }) :=
  ⟨⟨by norm_num, by norm_num⟩,
    C7_dft_log2_max_size (Builder.new []) 12 (by norm_num) (by norm_num)⟩

/-! ## C6 -/

theorem Hann_weights_eq (n : ℕ) :
    (Hann.new n).weights = (List.range n).map fun i : ℕ =>
      Real.sin (Real.pi * (i : ℝ) / ((n - 1 : ℕ) : ℝ)) ^ 2 := rfl

/-- **C6** counterexample: `Hann::new(1)` does not fail: the construction
returns a window holding exactly one weight. -/
theorem C6_counterexample : (Hann.new 1).weights.length = 1 := by
  rw [Hann_weights_eq]
  simp only [List.length_map, List.length_range]

/-- **C6** (amended): for every `l ≥ 2`, `Hann::new(l)` deterministically
produces `l` weights with `weights[i] = sin(π·i/(l-1))²`; for `l < 2` the
construction does not fail (at `l = 1` it yields a single ill-defined `0/0`
weight, NaN in IEEE terms). -/
theorem C6_hann_weights (l : ℕ) (hl : 2 ≤ l) :
    (Hann.new l).weights.length = l
      ∧ ∀ i < l, (Hann.new l).weights.getD i 0
          = Real.sin (Real.pi * (i : ℝ) / ((l : ℝ) - 1)) ^ 2 := by
  constructor
  · rw [Hann_weights_eq]
    simp only [List.length_map, List.length_range]
  · intro i hi
    rw [Hann_weights_eq]
    rw [getD_map' _ _ i (by simp only [List.length_range]; exact hi) 0 0,
      List.getD_eq_getElem _ _ (by simp only [List.length_range]; exact hi),
      List.getElem_range]
    congr 2
    rw [Nat.cast_sub (by omega : 1 ≤ l), Nat.cast_one]

/-- Witness for C6 at `l = 4`. -/
theorem C6_hann_weights_witness :
    (2:ℕ) ≤ 4
      ∧ ((Hann.new 4).weights.length = 4
        ∧ ∀ i < 4, (Hann.new 4).weights.getD i 0
            = Real.sin (Real.pi * (i : ℝ) / ((4 : ℝ) - 1)) ^ 2) :=
  ⟨by norm_num, C6_hann_weights 4 (by norm_num)⟩

/-! ## Concrete build evaluation helpers -/

theorem nextPowerOfTwo_pow (k : ℕ) : nextPowerOfTwo (2 ^ k) = 2 ^ k := by
  rw [nextPowerOfTwo, Nat.clog_pow _ _ (by norm_num)]

/-- Evaluation of `Builder::new(signal).build()` on concrete inputs:
with the defaults `k = 4`, `a = 0.5`, cap `4096`; `l = trunc(n/2.5)` and
`r = round(l·0.5)` are supplied with their defining bounds. -/
theorem build_default_eval (sig : List ℝ) (n l r : ℕ) (wnew : ℕ → WindowData)
    (hsig : sig.length = n)
    (h1 : (l : ℝ) ≤ (n : ℝ) / 2.5) (h2 : (n : ℝ) / 2.5 < (l : ℝ) + 1)
    (hcap : nextPowerOfTwo l ≤ 4096)
    (hr1 : (r : ℝ) - 1/2 ≤ (l : ℝ) * 0.5) (hr2 : (l : ℝ) * 0.5 < (r : ℝ) + 1/2) :
    ((Builder.new sig).build wnew).n_segment = 4
      ∧ ((Builder.new sig).build wnew).segment_size = l
      ∧ ((Builder.new sig).build wnew).dft_size = nextPowerOfTwo l
      ∧ ((Builder.new sig).build wnew).overlap_idx = l - r
      ∧ ((Builder.new sig).build wnew).signal = sig
      ∧ ((Builder.new sig).build wnew).fs = 1
      ∧ ((Builder.new sig).build wnew).window = wnew l := by
  have hseg : (Builder.new sig).segment_size = l := by
    show rustTrunc ((sig.length : ℝ) / (4 * (1 - 0.5) + 0.5)) = l
    rw [hsig, show (4 * (1 - 0.5) + 0.5 : ℝ) = 2.5 from by norm_num]
    exact rustTrunc_eq _ _ h1 h2
  have hcond : ¬ (nextPowerOfTwo (Builder.new sig).segment_size
      > (Builder.new sig).dft_max_size) := by
    rw [hseg]
    show ¬ (nextPowerOfTwo l > 4096)
    omega
  rw [Builder.build, if_neg hcond]
  refine ⟨rfl, hseg, by rw [hseg], ?_, rfl, rfl, by rw [hseg]⟩
  rw [hseg]
  show l - rustRound ((l : ℝ) * 0.5) = l - r
  rw [rustRound_eq _ _ (by exact_mod_cast hr1) (by exact_mod_cast hr2)]

/-! ## C4 -/

/-- **C4** counterexample: building with sampling frequency `0` does not fail:
it produces an estimator whose `fs` is `0`, and the spectral-density
periodogram is then produced as well (here with `4` values). -/
theorem C4_counterexample :
    ((((Builder.new (List.replicate 20 (0:ℝ))).sampling_frequency 0).build
        Hann.new).fs = 0)
      ∧ (((((Builder.new (List.replicate 20 (0:ℝ))).sampling_frequency 0).build
          Hann.new).sd_periodogram id).values.length = 4) := by
  have hseg : (((Builder.new (List.replicate 20 (0:ℝ))).sampling_frequency 0)).segment_size
      = 8 := by
    show rustTrunc (((List.replicate 20 (0:ℝ)).length : ℝ) / (4 * (1 - 0.5) + 0.5)) = 8
    rw [List.length_replicate,
      show ((20:ℕ):ℝ) / (4 * (1 - 0.5) + 0.5) = ((8:ℕ):ℝ) from by norm_num]
    exact rustTrunc_natCast 8
  have hcond : ¬ (nextPowerOfTwo (((Builder.new (List.replicate 20 (0:ℝ))).sampling_frequency
      0)).segment_size > (((Builder.new (List.replicate 20 (0:ℝ))).sampling_frequency
      0)).dft_max_size) := by
    rw [hseg]
    show ¬ (nextPowerOfTwo 8 > 4096)
    rw [show (8:ℕ) = 2 ^ 3 from by norm_num, nextPowerOfTwo_pow]
    norm_num
  constructor
  · rw [Builder.build, if_neg hcond]
    rfl
  · rw [Welch.sd_periodogram, Welch.periodogramOf_values_length]
    rw [Builder.build, if_neg hcond]
    show nextPowerOfTwo (((Builder.new (List.replicate 20 (0:ℝ))).sampling_frequency
      0)).segment_size / 2 = 4
    rw [hseg, show (8:ℕ) = 2 ^ 3 from by norm_num, nextPowerOfTwo_pow]
    norm_num

theorem rustRound_natCast (n : ℕ) : rustRound ((n : ℝ)) = n := by
  rw [rustRound, round_natCast, Int.toNat_natCast]

/-- Evaluation of `Builder::build` on any builder state whose segment size
does not exceed the cap: the uncapped branch is taken and the fields are
copied/derived as in the source. -/
theorem build_eval_uncapped (b : Builder) (wnew : ℕ → WindowData)
    (hcap : nextPowerOfTwo b.segment_size ≤ b.dft_max_size) :
    (b.build wnew).n_segment = b.n_segment
      ∧ (b.build wnew).segment_size = b.segment_size
      ∧ (b.build wnew).dft_size = nextPowerOfTwo b.segment_size
      ∧ (b.build wnew).overlap_idx
          = b.segment_size - rustRound ((b.segment_size : ℝ) * b.overlap)
      ∧ (b.build wnew).signal = b.signal
      ∧ (b.build wnew).fs = b.fs.getD 1
      ∧ (b.build wnew).window = wnew b.segment_size := by
  rw [Builder.build, if_neg (by omega)]
  exact ⟨rfl, rfl, rfl, rfl, rfl, rfl, rfl⟩

/-- **C4** (amended): build-time validation is absent: `build` never reports a
configuration error.  With `sampling_frequency(0)` in spectral-density mode a
complete estimator carrying `fs = 0` is produced, and whenever its plan is
nondegenerate (`l ≥ 1`, `d ≥ 1`; outside that region the Rust segment
iteration panics at run time, after build) a periodogram is produced as well.
After `overlap(1.0)`, on a nonempty signal short enough for the uncapped
branch, `build` still returns a complete estimator with `l = n` and stride
`0`: the failure surfaces only later, as a run-time panic in segment
iteration, never as a build-time error. -/
theorem C4_no_validation (sig : List ℝ) (fs : ℝ) (wnew : ℕ → WindowData)
    (dft : List ℂ → List ℂ)
    (hn1 : 1 ≤ sig.length) (hn2 : sig.length ≤ 4096)
    (hl : 1 ≤ (((Builder.new sig).sampling_frequency fs).build wnew).segment_size)
    (hd : 1 ≤ (((Builder.new sig).sampling_frequency fs).build wnew).overlap_idx) :
    ((((Builder.new sig).sampling_frequency fs).build wnew).fs = fs
      ∧ (((((Builder.new sig).sampling_frequency fs).build wnew).sd_periodogram
          dft).values.length
        = (((Builder.new sig).sampling_frequency fs).build wnew).dft_size / 2))
    ∧ ((((Builder.new sig).set_overlap 1).build wnew).n_segment = 4
      ∧ (((Builder.new sig).set_overlap 1).build wnew).segment_size = sig.length
      ∧ (((Builder.new sig).set_overlap 1).build wnew).overlap_idx = 0
      ∧ (((Builder.new sig).set_overlap 1).build wnew).fs = 1) := by
  have hsegf : ((Builder.new sig).set_overlap 1).segment_size = sig.length := by
    show rustTrunc ((sig.length : ℝ) / (((4 : ℕ) : ℝ) * (1 - 1) + 1)) = sig.length
    rw [show (((4 : ℕ) : ℝ) * (1 - 1) + 1) = 1 from by norm_num, div_one]
    exact rustTrunc_natCast _
  have hcap2 : nextPowerOfTwo ((Builder.new sig).set_overlap 1).segment_size
      ≤ ((Builder.new sig).set_overlap 1).dft_max_size := by
    rw [hsegf]
    show nextPowerOfTwo sig.length ≤ 4096
    rw [nextPowerOfTwo, show (4096 : ℕ) = 2 ^ 12 from by norm_num]
    apply Nat.pow_le_pow_right (by norm_num)
    rw [← Nat.le_pow_iff_clog_le (by norm_num)]
    exact le_trans hn2 (by norm_num)
  obtain ⟨hb1, hb2, -, hb4, -, hb6, -⟩ :=
    build_eval_uncapped ((Builder.new sig).set_overlap 1) wnew hcap2
  refine ⟨⟨?_, ?_⟩, ?_, ?_, ?_, ?_⟩
  · rw [Builder.build]
    split_ifs <;> rfl
  · rw [Welch.sd_periodogram, Welch.periodogramOf_values_length]
  · rw [hb1]
    rfl
  · rw [hb2]
    exact hsegf
  · rw [hb4, hsegf]
    show sig.length - rustRound ((sig.length : ℝ) * 1) = 0
    rw [mul_one, rustRound_natCast]
    omega
  · rw [hb6]
    rfl

/-- Witness for C4 on a 20-sample signal with `fs = 0` (built plan: `l = 8`,
`d = 4`, both nondegenerate). -/
theorem C4_no_validation_witness :
    (1 ≤ (List.replicate 20 (0:ℝ)).length
      ∧ (List.replicate 20 (0:ℝ)).length ≤ 4096
      ∧ 1 ≤ (((Builder.new (List.replicate 20 (0:ℝ))).sampling_frequency 0).build Hann.new).segment_size
      ∧ 1 ≤ (((Builder.new (List.replicate 20 (0:ℝ))).sampling_frequency 0).build Hann.new).overlap_idx)
    ∧ (((((Builder.new (List.replicate 20 (0:ℝ))).sampling_frequency 0).build Hann.new).fs = 0
        ∧ ((((Builder.new (List.replicate 20 (0:ℝ))).sampling_frequency 0).build Hann.new).sd_periodogram id).values.length = (((Builder.new (List.replicate 20 (0:ℝ))).sampling_frequency 0).build Hann.new).dft_size / 2)
      ∧ ((((Builder.new (List.replicate 20 (0:ℝ))).set_overlap 1).build Hann.new).n_segment = 4
        ∧ (((Builder.new (List.replicate 20 (0:ℝ))).set_overlap 1).build Hann.new).segment_size = (List.replicate 20 (0:ℝ)).length
        ∧ (((Builder.new (List.replicate 20 (0:ℝ))).set_overlap 1).build Hann.new).overlap_idx = 0
        ∧ (((Builder.new (List.replicate 20 (0:ℝ))).set_overlap 1).build Hann.new).fs = 1)) := by
  have hseg : ((Builder.new (List.replicate 20 (0:ℝ))).sampling_frequency 0).segment_size = 8 := by
    show rustTrunc (((List.replicate 20 (0:ℝ)).length : ℝ)
      / (4 * (1 - 0.5) + 0.5)) = 8
    rw [List.length_replicate,
      show ((20:ℕ):ℝ) / (4 * (1 - 0.5) + 0.5) = ((8:ℕ):ℝ) from by norm_num]
    exact rustTrunc_natCast 8
  have hcap : nextPowerOfTwo ((Builder.new (List.replicate 20 (0:ℝ))).sampling_frequency 0).segment_size ≤ ((Builder.new (List.replicate 20 (0:ℝ))).sampling_frequency 0).dft_max_size := by
    rw [hseg]
    show nextPowerOfTwo 8 ≤ 4096
    rw [show (8:ℕ) = 2 ^ 3 from by norm_num, nextPowerOfTwo_pow]
    norm_num
  obtain ⟨-, hb2, -, hb4, -, -, -⟩ := build_eval_uncapped ((Builder.new (List.replicate 20 (0:ℝ))).sampling_frequency 0) Hann.new hcap
  have hl : 1 ≤ (((Builder.new (List.replicate 20 (0:ℝ))).sampling_frequency 0).build Hann.new).segment_size := by
    rw [hb2, hseg]
    norm_num
  have hd : 1 ≤ (((Builder.new (List.replicate 20 (0:ℝ))).sampling_frequency 0).build Hann.new).overlap_idx := by
    rw [hb4, hseg]
    show 1 ≤ 8 - rustRound (((8:ℕ):ℝ) * 0.5)
    rw [show (((8:ℕ):ℝ) * 0.5) = ((4:ℕ):ℝ) from by norm_num, rustRound_natCast]
    norm_num
  exact ⟨⟨by simp, by simp, hl, hd⟩,
    C4_no_validation (List.replicate 20 (0:ℝ)) 0 Hann.new id
      (by simp) (by simp) hl hd⟩

/-! ## C5 -/

/-- **C5** counterexample: the planner can produce an estimator whose
periodogram has `N = 1 < 2` values (a 5-sample signal under the defaults gives
`l = 2`, `dft_size = 2`), so `N ≥ 2` does not hold automatically. -/
theorem C5_counterexample :
    ((((Builder.new (List.replicate 5 (0:ℝ))).build
        Hann.new).sd_periodogram id).values).length = 1 := by
  obtain ⟨-, -, hdft, -, -, -, -⟩ :=
    build_default_eval (List.replicate 5 (0:ℝ)) 5 2 1 Hann.new
      (List.length_replicate 5 0)
      (by norm_num) (by norm_num)
      (by rw [show (2:ℕ) = 2 ^ 1 from by norm_num, nextPowerOfTwo_pow]; norm_num)
      (by norm_num) (by norm_num)
  rw [Welch.sd_periodogram, Welch.periodogramOf_values_length, hdft,
    show (2:ℕ) = 2 ^ 1 from by norm_num, nextPowerOfTwo_pow]
  norm_num

/-- **C5** (amended): for every periodogram with `N ≥ 2` values and `fs > 0`,
`frequency()` returns `N` values, bin `i` mapping to `i·fs·0.5/(N-1)`,
strictly increasing from `0` to `fs/2` inclusive with uniform spacing
`fs·0.5/(N-1)`.  (`N ≥ 2` is a genuine precondition: see the counterexample.) -/
theorem C5_frequency_axis (pd : Periodogram) (h2 : 2 ≤ pd.values.length)
    (hfs : 0 < pd.fs) :
    pd.frequency.length = pd.values.length
      ∧ (∀ i < pd.values.length, pd.frequency.getD i 0
          = (i : ℝ) * pd.fs * 0.5 / ((pd.values.length - 1 : ℕ) : ℝ))
      ∧ (∀ i j : ℕ, i < j → j < pd.values.length →
          pd.frequency.getD i 0 < pd.frequency.getD j 0)
      ∧ pd.frequency.getD 0 0 = 0
      ∧ pd.frequency.getD (pd.values.length - 1) 0 = pd.fs / 2
      ∧ (∀ i : ℕ, i + 1 < pd.values.length →
          pd.frequency.getD (i + 1) 0 - pd.frequency.getD i 0
            = pd.fs * 0.5 / ((pd.values.length - 1 : ℕ) : ℝ)) := by
  set N := pd.values.length with hN
  have hlen : pd.frequency.length = N := by
    rw [Periodogram.frequency]
    simp only [List.length_map, List.length_range]
  have hget : ∀ i < N, pd.frequency.getD i 0
      = (i : ℝ) * pd.fs * 0.5 / ((N - 1 : ℕ) : ℝ) := by
    intro i hi
    rw [Periodogram.frequency,
      getD_map' _ _ i (by simp only [List.length_range]; exact hi) 0 0,
      List.getD_eq_getElem _ _ (by simp only [List.length_range]; exact hi),
      List.getElem_range]
  have hD : (0 : ℝ) < ((N - 1 : ℕ) : ℝ) := by
    have : 1 ≤ N - 1 := by omega
    exact_mod_cast Nat.lt_of_lt_of_le Nat.zero_lt_one this
  have hD' : ((N - 1 : ℕ) : ℝ) ≠ 0 := ne_of_gt hD
  have hc : (0 : ℝ) < pd.fs * 0.5 / ((N - 1 : ℕ) : ℝ) :=
    div_pos (mul_pos hfs (by norm_num)) hD
  refine ⟨hlen, hget, ?_, ?_, ?_, ?_⟩
  · intro i j hij hj
    rw [hget i (by omega), hget j hj]
    have hij' : (i : ℝ) < (j : ℝ) := by exact_mod_cast hij
    calc (i : ℝ) * pd.fs * 0.5 / ((N - 1 : ℕ) : ℝ)
        = (i : ℝ) * (pd.fs * 0.5 / ((N - 1 : ℕ) : ℝ)) := by ring
      _ < (j : ℝ) * (pd.fs * 0.5 / ((N - 1 : ℕ) : ℝ)) :=
          mul_lt_mul_of_pos_right hij' hc
      _ = (j : ℝ) * pd.fs * 0.5 / ((N - 1 : ℕ) : ℝ) := by ring
  · rw [hget 0 (by omega)]
    simp
  · rw [hget (N - 1) (by omega)]
    rw [Nat.cast_sub (by omega : 1 ≤ N), Nat.cast_one]
    have hD2 : (N : ℝ) - 1 ≠ 0 := by
      have h2' : (2 : ℝ) ≤ (N : ℝ) := by exact_mod_cast h2
      linarith
    field_simp
    ring
  · intro i hi
    rw [hget (i + 1) (by omega), hget i (by omega)]
    push_cast
    ring

/-- Witness for C5 on the two-value periodogram `{fs := 1, values := [0, 0]}`. -/
theorem C5_frequency_axis_witness :
    ((2 ≤ ({ fs := 1, values := [0, 0] } : Periodogram).values.length)
      ∧ ((0:ℝ) < ({ fs := 1, values := [0, 0] } : Periodogram).fs))
    ∧ (({ fs := 1, values := [0, 0] } : Periodogram).frequency.length
          = ({ fs := 1, values := [0, 0] } : Periodogram).values.length
      ∧ (∀ i < ({ fs := 1, values := [0, 0] } : Periodogram).values.length,
          ({ fs := 1, values := [0, 0] } : Periodogram).frequency.getD i 0
            = (i : ℝ) * ({ fs := 1, values := [0, 0] } : Periodogram).fs * 0.5
              / ((({ fs := 1, values := [0, 0] } : Periodogram).values.length - 1 : ℕ) : ℝ))
      ∧ (∀ i j : ℕ, i < j → j < ({ fs := 1, values := [0, 0] } : Periodogram).values.length →
          ({ fs := 1, values := [0, 0] } : Periodogram).frequency.getD i 0
            < ({ fs := 1, values := [0, 0] } : Periodogram).frequency.getD j 0)
      ∧ ({ fs := 1, values := [0, 0] } : Periodogram).frequency.getD 0 0 = 0
      ∧ ({ fs := 1, values := [0, 0] } : Periodogram).frequency.getD
            (({ fs := 1, values := [0, 0] } : Periodogram).values.length - 1) 0
          = ({ fs := 1, values := [0, 0] } : Periodogram).fs / 2
      ∧ (∀ i : ℕ, i + 1 < ({ fs := 1, values := [0, 0] } : Periodogram).values.length →
          ({ fs := 1, values := [0, 0] } : Periodogram).frequency.getD (i + 1) 0
              - ({ fs := 1, values := [0, 0] } : Periodogram).frequency.getD i 0
            = ({ fs := 1, values := [0, 0] } : Periodogram).fs * 0.5
              / ((({ fs := 1, values := [0, 0] } : Periodogram).values.length - 1 : ℕ) : ℝ))) :=
  ⟨⟨by simp, by norm_num⟩, C5_frequency_axis _ (by simp) (by norm_num)⟩

/-! ## C3 -/

/-- **C3** counterexample: on a 12-sample signal under the defaults the plan
has `n_segment = 4` but the periodogram extracts `5` segments (every segment
that fits), so the extraction does not cover exactly `n_segment` segments. -/
theorem C3_counterexample :
    (((Builder.new (List.replicate 12 (0:ℝ))).build Hann.new).n_segment = 4)
      ∧ ((Builder.new (List.replicate 12 (0:ℝ))).build Hann.new).segments.length = 5 := by
  obtain ⟨hk, hseg, -, hov, hsig, -, -⟩ :=
    build_default_eval (List.replicate 12 (0:ℝ)) 12 4 2 Hann.new
      (List.length_replicate 12 0)
      (by norm_num) (by norm_num)
      (by rw [show (4:ℕ) = 2 ^ 2 from by norm_num, nextPowerOfTwo_pow]; norm_num)
      (by norm_num) (by norm_num)
  refine ⟨hk, ?_⟩
  rw [Welch.segments_length _ (by rw [hov]; norm_num)
      (by rw [hseg, hsig, List.length_replicate]; norm_num),
    hsig, hseg, hov, List.length_replicate]

/-- **C3** (amended): the periodogram computation extracts every segment that
fits: when `l ≤ n` and `d ≥ 1` there are exactly `(n − l)/d + 1` of them
(which may exceed or fall short of `n_segment`, with no error either way),
segment `j` covering samples `[j·d, j·d + l)`; the transform/accumulation
stage processes exactly the extracted segments. -/
theorem C3_segment_extraction (w : Welch) (hd : 1 ≤ w.overlap_idx)
    (hl : w.segment_size ≤ w.signal.length) :
    w.segments.length = (w.signal.length - w.segment_size) / w.overlap_idx + 1
      ∧ (∀ j < w.segments.length,
          w.segments.getD j []
              = (w.signal.drop (j * w.overlap_idx)).take w.segment_size
            ∧ j * w.overlap_idx + w.segment_size ≤ w.signal.length)
      ∧ ∀ dft : List ℂ → List ℂ, (w.dfts dft).length = w.segments.length := by
  refine ⟨Welch.segments_length w hd hl, ?_, ?_⟩
  · intro j hj
    exact ⟨Welch.segments_getD w hd j hj, Welch.segments_fit w hd j hj⟩
  · intro dft
    rw [Welch.dfts, List.length_map]

/-- A concrete test estimator: 10 samples, `k = 4`, `l = 4`, `m = 4`, `d = 2`,
rectangular window (its `(10 - 4)/2 + 1 = 4` available segments equal
`n_segment`). -/
noncomputable def exampleEstimator : Welch :=
  { n_segment := 4
    segment_size := 4
    dft_size := 4
    overlap_idx := 2
    signal := List.replicate 10 (0:ℝ)
    fs := 1
    window := One.new 4 }

/-- Witness for C3 on the concrete 10-sample estimator with `l = 4`, `d = 2`. -/
theorem C3_segment_extraction_witness :
    ((1 ≤ exampleEstimator.overlap_idx)
      ∧ exampleEstimator.segment_size ≤ exampleEstimator.signal.length)
    ∧ (exampleEstimator.segments.length
        = (exampleEstimator.signal.length - exampleEstimator.segment_size)
          / exampleEstimator.overlap_idx + 1
      ∧ (∀ j < exampleEstimator.segments.length,
          exampleEstimator.segments.getD j []
              = (exampleEstimator.signal.drop
                  (j * exampleEstimator.overlap_idx)).take
                  exampleEstimator.segment_size
            ∧ j * exampleEstimator.overlap_idx + exampleEstimator.segment_size
              ≤ exampleEstimator.signal.length)
      ∧ ∀ dft : List ℂ → List ℂ,
          (exampleEstimator.dfts dft).length = exampleEstimator.segments.length) :=
  ⟨⟨by norm_num [exampleEstimator], by simp [exampleEstimator]⟩,
    C3_segment_extraction exampleEstimator (by norm_num [exampleEstimator])
      (by simp [exampleEstimator])⟩

/-! ## C8 -/

theorem Hann_sqr_sum_eq (n : ℕ) :
    (Hann.new n).sqr_sum = ((Hann.new n).weights.map fun w => w * w).sum := rfl

theorem Hann_sum_sqr_eq (n : ℕ) :
    (Hann.new n).sum_sqr = ((Hann.new n).weights.sum) ^ 2 := rfl

theorem One_sqr_sum_eq (n : ℕ) : (One.new n).sqr_sum = (n : ℝ) := rfl

theorem One_sum_sqr_eq (n : ℕ) : (One.new n).sum_sqr = (n : ℝ) ^ 2 := rfl

/-- Every value produced by the shared pipeline with a nonnegative scale is
nonnegative: the accumulator entries are sums of squared moduli. -/
theorem Welch.periodogramOf_values_nonneg (w : Welch) (dft : List ℂ → List ℂ)
    (u : ℝ) (hu : 0 ≤ u) : ∀ x ∈ (w.periodogramOf dft u).values, 0 ≤ x := by
  intro x hx
  rw [Welch.periodogramOf] at hx
  simp only [List.mem_map] at hx
  obtain ⟨a, ha, rfl⟩ := hx
  refine mul_nonneg ?_ hu
  refine foldl_addInto_forall_nonneg _ _ ?_ ?_ a ha
  · intro y hy
    rw [List.eq_of_mem_replicate hy]
  · intro p hp y hy
    obtain ⟨seg, _, rfl⟩ := List.mem_map.mp hp
    obtain ⟨z, _, rfl⟩ := List.mem_map.mp hy
    exact Complex.normSq_nonneg z

/-- **C8**: with a supported window (Hann or rectangular) and `fs > 0`, every
value of both periodograms is nonnegative. -/
theorem C8_values_nonneg (w : Welch) (dft : List ℂ → List ℂ) (l1 l2 : ℕ)
    (hwin : w.window = Hann.new l1 ∨ w.window = One.new l2) (hfs : 0 < w.fs) :
    (∀ x ∈ (w.sd_periodogram dft).values, 0 ≤ x)
      ∧ (∀ x ∈ (w.ps_periodogram dft).values, 0 ≤ x) := by
  have hsqr : 0 ≤ w.window.sqr_sum := by
    rcases hwin with h | h
    · rw [h, Hann_sqr_sum_eq]
      apply List.sum_nonneg
      intro x hx
      obtain ⟨v, _, rfl⟩ := List.mem_map.mp hx
      exact mul_self_nonneg v
    · rw [h, One_sqr_sum_eq]
      positivity
  have hsum : 0 ≤ w.window.sum_sqr := by
    rcases hwin with h | h
    · rw [h, Hann_sum_sqr_eq]
      positivity
    · rw [h, One_sum_sqr_eq]
      positivity
  constructor
  · rw [Welch.sd_periodogram]
    exact Welch.periodogramOf_values_nonneg w dft _
      (inv_nonneg.mpr (mul_nonneg (mul_nonneg hsqr (Nat.cast_nonneg _)) hfs.le))
  · rw [Welch.ps_periodogram]
    exact Welch.periodogramOf_values_nonneg w dft _
      (inv_nonneg.mpr (mul_nonneg hsum (Nat.cast_nonneg _)))

/-- Witness for C8 on the concrete rectangular-window estimator. -/
theorem C8_values_nonneg_witness :
    ((exampleEstimator.window = Hann.new 0 ∨ exampleEstimator.window = One.new 4)
      ∧ 0 < exampleEstimator.fs)
    ∧ ((∀ x ∈ (exampleEstimator.sd_periodogram id).values, 0 ≤ x)
      ∧ (∀ x ∈ (exampleEstimator.ps_periodogram id).values, 0 ≤ x)) :=
  ⟨⟨Or.inr rfl, by norm_num [exampleEstimator]⟩,
    C8_values_nonneg exampleEstimator id 0 4 (Or.inr rfl)
      (by norm_num [exampleEstimator])⟩

/-! ## C10 -/

theorem Welch.periodogramOf_getD_raw (w : Welch) (dft : List ℂ → List ℂ)
    (u : ℝ) (i : ℕ) (hi : i < w.dft_size / 2) :
    (w.periodogramOf dft u).values.getD i 0
      = (((w.dfts dft).map fun seg => (seg.take (w.dft_size / 2)).map
          fun z => Complex.normSq z).foldl addInto
          (List.replicate (w.dft_size / 2) 0)).getD i 0 * u := by
  rw [Welch.periodogramOf]
  exact getD_map' _ _ i
    (by rw [foldl_addInto_length, List.length_replicate]; exact hi) 0 0

/-- **C10**: the two periodogram modes are elementwise proportional:
`density[i] · (sqr_sum · fs) = power[i] · sum_sqr` for every bin `i`. -/
theorem C10_mode_proportionality (w : Welch) (dft : List ℂ → List ℂ)
    (hsqr : w.window.sqr_sum ≠ 0) (hsum : w.window.sum_sqr ≠ 0)
    (hfs : w.fs ≠ 0) :
    ∀ i : ℕ, (w.sd_periodogram dft).values.getD i 0 * (w.window.sqr_sum * w.fs)
      = (w.ps_periodogram dft).values.getD i 0 * w.window.sum_sqr := by
  intro i
  rw [Welch.sd_periodogram, Welch.ps_periodogram]
  by_cases hi : i < w.dft_size / 2
  · rw [Welch.periodogramOf_getD_raw _ _ _ i hi,
      Welch.periodogramOf_getD_raw _ _ _ i hi]
    by_cases hk : (w.n_segment : ℝ) = 0
    · simp [hk]
    · field_simp
      ring
  · rw [List.getD_eq_default _ _
        (by rw [Welch.periodogramOf_values_length]; omega),
      List.getD_eq_default _ _
        (by rw [Welch.periodogramOf_values_length]; omega),
      zero_mul, zero_mul]

/-- Witness for C10 on the concrete rectangular-window estimator. -/
theorem C10_mode_proportionality_witness :
    (exampleEstimator.window.sqr_sum ≠ 0
      ∧ exampleEstimator.window.sum_sqr ≠ 0
      ∧ exampleEstimator.fs ≠ 0)
    ∧ (∀ i : ℕ, (exampleEstimator.sd_periodogram id).values.getD i 0
          * (exampleEstimator.window.sqr_sum * exampleEstimator.fs)
        = (exampleEstimator.ps_periodogram id).values.getD i 0
          * exampleEstimator.window.sum_sqr) :=
  ⟨⟨by rw [show exampleEstimator.window = One.new 4 from rfl, One_sqr_sum_eq]; norm_num,
    by rw [show exampleEstimator.window = One.new 4 from rfl, One_sum_sqr_eq]; norm_num,
    by norm_num [exampleEstimator]⟩,
    C10_mode_proportionality exampleEstimator id
      (by rw [show exampleEstimator.window = One.new 4 from rfl, One_sqr_sum_eq]; norm_num)
      (by rw [show exampleEstimator.window = One.new 4 from rfl, One_sum_sqr_eq]; norm_num)
      (by norm_num [exampleEstimator])⟩

/-! ## C2 -/

/-- **C2**: for a built estimator whose signal admits exactly `n_segment`
segments, both periodogram operations return exactly `dft_size/2` values;
value `i` equals `u` times the sum over the `n_segment` segments of the
squared modulus of bin `i` of the transformed windowed segment, with
`u = (sqr_sum·k·fs)⁻¹` in spectral-density mode and `u = (sum_sqr·k)⁻¹` in
power-spectrum mode; and each windowed segment is the signal samples
multiplied elementwise by the window weights, zero-padded from `l` to `m`,
with all imaginary parts zero. -/
theorem C2_periodogram_formula (w : Welch) (dft : List ℂ → List ℂ)
    (hdft : ∀ buf : List ℂ, (dft buf).length = buf.length)
    (hS : w.segments.length = w.n_segment)
    (hd : 1 ≤ w.overlap_idx)
    (hw : w.window.weights.length = w.segment_size) :
    ((w.sd_periodogram dft).values.length = w.dft_size / 2
      ∧ (w.ps_periodogram dft).values.length = w.dft_size / 2)
    ∧ (∀ i < w.dft_size / 2,
        (w.sd_periodogram dft).values.getD i 0
          = (w.window.sqr_sum * (w.n_segment : ℝ) * w.fs)⁻¹
            * ((List.range w.n_segment).map fun j : ℕ => Complex.normSq
                ((dft (windowedBuffer w.dft_size (w.segments.getD j [])
                  w.window.weights)).getD i 0)).sum
        ∧ (w.ps_periodogram dft).values.getD i 0
          = (w.window.sum_sqr * (w.n_segment : ℝ))⁻¹
            * ((List.range w.n_segment).map fun j : ℕ => Complex.normSq
                ((dft (windowedBuffer w.dft_size (w.segments.getD j [])
                  w.window.weights)).getD i 0)).sum)
    ∧ (∀ j < w.n_segment, ∀ t < w.dft_size,
        (windowedBuffer w.dft_size (w.segments.getD j []) w.window.weights).getD t 0
          = if t < w.segment_size
            then ((w.signal.getD (j * w.overlap_idx + t) 0
              * w.window.weights.getD t 0 : ℝ) : ℂ)
            else 0) := by
  have hval : ∀ u : ℝ, ∀ i, i < w.dft_size / 2 →
      (w.periodogramOf dft u).values.getD i 0
        = u * ((List.range w.n_segment).map fun j : ℕ => Complex.normSq
            ((dft (windowedBuffer w.dft_size (w.segments.getD j [])
              w.window.weights)).getD i 0)).sum := by
    intro u i hi
    rw [Welch.periodogramOf_values_getD w dft u hdft i hi, ← hS,
      sum_map_range_getD w.segments
        (fun s => Complex.normSq
          ((dft (windowedBuffer w.dft_size s w.window.weights)).getD i 0)) []]
    ring
  refine ⟨⟨Welch.periodogramOf_values_length _ _ _,
    Welch.periodogramOf_values_length _ _ _⟩, ?_, ?_⟩
  · intro i hi
    exact ⟨hval _ i hi, hval _ i hi⟩
  · intro j hj t ht
    have hj' : j < w.segments.length := by rw [hS]; exact hj
    have hsegj := Welch.segments_getD w hd j hj'
    have hfit := Welch.segments_fit w hd j hj'
    have hslen : (w.segments.getD j []).length = w.segment_size := by
      rw [hsegj, List.length_take, List.length_drop]
      omega
    rw [windowedBuffer_getD _ _ _ t ht, hslen, hw, min_self]
    by_cases hts : t < w.segment_size
    · rw [if_pos hts, if_pos hts]
      congr 2
      rw [hsegj, getD_take' _ _ _ hts, getD_drop']
    · rw [if_neg hts, if_neg hts]

/-- Witness for C2 on the concrete rectangular-window estimator with the
identity transform (which satisfies the in-place length contract). -/
theorem C2_periodogram_formula_witness :
    ((∀ buf : List ℂ, (id buf).length = buf.length)
      ∧ exampleEstimator.segments.length = exampleEstimator.n_segment
      ∧ 1 ≤ exampleEstimator.overlap_idx
      ∧ exampleEstimator.window.weights.length = exampleEstimator.segment_size)
    ∧ (((exampleEstimator.sd_periodogram id).values.length
          = exampleEstimator.dft_size / 2
        ∧ (exampleEstimator.ps_periodogram id).values.length
          = exampleEstimator.dft_size / 2)
      ∧ (∀ i < exampleEstimator.dft_size / 2,
          (exampleEstimator.sd_periodogram id).values.getD i 0
            = (exampleEstimator.window.sqr_sum * (exampleEstimator.n_segment : ℝ)
                * exampleEstimator.fs)⁻¹
              * ((List.range exampleEstimator.n_segment).map fun j : ℕ =>
                  Complex.normSq ((id (windowedBuffer exampleEstimator.dft_size
                    (exampleEstimator.segments.getD j [])
                    exampleEstimator.window.weights)).getD i 0)).sum
          ∧ (exampleEstimator.ps_periodogram id).values.getD i 0
            = (exampleEstimator.window.sum_sqr * (exampleEstimator.n_segment : ℝ))⁻¹
              * ((List.range exampleEstimator.n_segment).map fun j : ℕ =>
                  Complex.normSq ((id (windowedBuffer exampleEstimator.dft_size
                    (exampleEstimator.segments.getD j [])
                    exampleEstimator.window.weights)).getD i 0)).sum)
      ∧ (∀ j < exampleEstimator.n_segment, ∀ t < exampleEstimator.dft_size,
          (windowedBuffer exampleEstimator.dft_size
            (exampleEstimator.segments.getD j [])
            exampleEstimator.window.weights).getD t 0
            = if t < exampleEstimator.segment_size
              then ((exampleEstimator.signal.getD
                  (j * exampleEstimator.overlap_idx + t) 0
                * exampleEstimator.window.weights.getD t 0 : ℝ) : ℂ)
              else 0)) := by
  have hS : exampleEstimator.segments.length = exampleEstimator.n_segment := by
    rw [Welch.segments_length exampleEstimator (by norm_num [exampleEstimator])
      (by simp [exampleEstimator])]
    simp [exampleEstimator]
  exact ⟨⟨fun _ => rfl, hS, by norm_num [exampleEstimator],
      by simp [exampleEstimator, One.new]⟩,
    C2_periodogram_formula exampleEstimator id (fun _ => rfl) hS
      (by norm_num [exampleEstimator]) (by simp [exampleEstimator, One.new])⟩
